import Mathlib

/-!
Verification of the descriptor-resolution engine of i3-dmenu-desktop-rs.

The Rust sources are shallowly embedded: Rust `String` values are modelled
as `List Char` (abbreviated `Str`), `HashMap` values as association lists
with insert-or-replace semantics, filesystem metadata as a function from
paths to optional permission modes, and the regular expressions appearing
in the source are translated into explicit recursive scanning functions
that implement the same leftmost-first matching semantics.
-/

set_option maxHeartbeats 1000000

namespace I3DmenuDesktop

/-- Rust strings are modelled as lists of characters. -/
abbrev Str := List Char

/-! ## Small generic helpers used throughout -/

/-- Whitespace as recognised by Rust `str::trim` and the regex class for
whitespace, restricted to the ASCII whitespace characters. -/
def isWs (c : Char) : Bool :=
  c = ' ' || c = '\t' || c = '\n' || c = '\r' || c = '\x0b' || c = '\x0c'

/-- Rust `str::trim`: remove leading and trailing whitespace. -/
def trim (s : Str) : Str :=
  ((s.dropWhile isWs).reverse.dropWhile isWs).reverse

/-! ## C8 — `escape_for_i3_exec` (src/app_launcher.rs) and its inverse -/

/-- The loop body of `escape_for_i3_exec`: a `"` or `\` is preceded by a
backslash, any other character is copied. -/
def escPair (ch : Char) : Str :=
  if ch = '"' || ch = '\\' then ['\\', ch] else [ch]

/-- Embedding of `escape_for_i3_exec` from src/app_launcher.rs: wrap the
command in double quotes and backslash-escape every `"` and `\` inside. -/
def escape_for_i3_exec (cmd : Str) : Str :=
  '"' :: cmd.flatMap escPair ++ ['"']

/-- Modelled from the spec: the body of the matching unquote drops one
backslash before each escaped `"` or `\`; other characters are copied. -/
def unescapeBody : Str → Str
  | [] => []
  | c :: rest =>
    if c = '\\' then
      match rest with
      | [] => ['\\']
      | d :: rest2 => if d = '"' || d = '\\' then d :: unescapeBody rest2
                      else '\\' :: unescapeBody (d :: rest2)
    else c :: unescapeBody rest

/-- Modelled from the spec: the matching unquote strips the outer pair of
double quotes and then unescapes the body. -/
def unquote (s : Str) : Str :=
  match s with
  | '"' :: rest => if rest.getLast? = some '"' then unescapeBody rest.dropLast else unescapeBody s
  | _ => unescapeBody s

/-! ## C4 — `is_executable` (src/desktop_entry.rs) -/

/-- Embedding of `is_executable` from src/desktop_entry.rs. The filesystem
is abstracted as a map from paths to optional permission modes (`none`
models a missing file or a metadata error). The source computes
`metadata(path).map_or(false, |m| m.permissions().mode() & 0o111 == 0o111)`. -/
def is_executable (fs : Str → Option Nat) (path : Str) : Bool :=
  match fs path with
  | none => false
  | some m => (m &&& 0o111) == 0o111

/-- Embedding of `join_path` from src/utils.rs. -/
def join_path (s1 s2 : Str) : Str :=
  if s1.getLast? = some '/' then s1 ++ s2 else s1 ++ '/' :: s2

/-! ## DesktopEntry record (src/desktop_entry.rs) -/

/-- Embedding of the `DesktopEntry` struct from src/desktop_entry.rs.
`mtime` (a `SystemTime`) is modelled as a natural number. -/
structure DesktopEntry where
  Name : Str
  Exec : Option Str
  TryExec : Option Str
  Path : Option Str
  Type_ : Str
  NoDisplay : Bool
  Hidden : Bool
  StartupNotify : Bool
  Terminal : Bool
  location : Str
  mtime : Nat
deriving DecidableEq

/-! ## C2 — `replace_field_codes` (src/desktop_entry.rs) -/

/-- The character class of the `FIELD_CODE` regex `%[fFuUdDnNickvm]` in
src/desktop_entry.rs. Note that `%` itself is not in the class. -/
def fieldCodeClass (c : Char) : Bool :=
  c = 'f' || c = 'F' || c = 'u' || c = 'U' || c = 'd' || c = 'D' ||
  c = 'n' || c = 'N' || c = 'i' || c = 'c' || c = 'k' || c = 'v' || c = 'm'

/-- The replacement table from the closure in `replace_field_codes`,
restricted to the characters the regex can actually match. The source's
`"%%" => "%"` and `_ => ""` arms are unreachable because the regex only
matches `%` followed by one of the thirteen class letters. -/
def fieldCodeValue (e : DesktopEntry) (first_arg all_args : Str) (c : Char) : Str :=
  if c = 'f' then first_arg
  else if c = 'F' then all_args
  else if c = 'u' then first_arg
  else if c = 'U' then all_args
  else if c = 'i' then []
  else if c = 'c' then e.Name
  else if c = 'k' then e.location
  else []

/-- The left-to-right non-overlapping replacement pass performed by
`FIELD_CODE.replace_all` in `replace_field_codes`. -/
def replaceFieldCodesGo (e : DesktopEntry) (first_arg all_args : Str) : Str → Str
  | [] => []
  | c :: rest =>
    if c = '%' then
      match rest with
      | [] => ['%']
      | d :: rest2 =>
        if fieldCodeClass d then fieldCodeValue e first_arg all_args d ++ replaceFieldCodesGo e first_arg all_args rest2
        else '%' :: replaceFieldCodesGo e first_arg all_args (d :: rest2)
    else c :: replaceFieldCodesGo e first_arg all_args rest

/-- Embedding of `DesktopEntry::replace_field_codes` from src/desktop_entry.rs. -/
def replace_field_codes (e : DesktopEntry) (exec_str : Str) (extra_args : List Str) : Str :=
  let first_arg := (extra_args.head?).getD []
  let all_args := List.intercalate [' '] extra_args
  replaceFieldCodesGo e first_arg all_args exec_str

/-! ## C3 — `get_arg0` (src/desktop_entry.rs)

The source matches `NONQUOTED_ARG0 = ^([^"]+)(?:\s|$)` first and
`QUOTED_ARG0 = ^"([^"]+)"(?:\s|$)` second, falling back to the whole
string. The functions below implement the leftmost-first (greedy,
Perl-preference) capture semantics of the regex crate for those two
anchored patterns. -/

/-- Index of the last whitespace character of a list, if any. -/
def lastWsIdx : Str → Option Nat
  | [] => none
  | c :: rest =>
    match lastWsIdx rest with
    | some i => some (i + 1)
    | none => if isWs c then some 0 else none

/-- Capture of `NONQUOTED_ARG0 = ^([^"]+)(?:\s|$)`. The class `[^"]`
includes whitespace, so when the input contains no `"` the greedy
repetition runs to the end of the string and the terminator matches `$`:
the capture is the whole input. When a `"` occurs later, the capture ends
at the last whitespace character before the first `"` (and the match
fails when no such whitespace exists at index at least 1). -/
def nonquotedArg0 (s : Str) : Option Str :=
  let p := s.takeWhile (· ≠ '"')
  if p.length = s.length then
    if p.isEmpty then none else some p
  else
    match lastWsIdx p with
    | some k => if 1 ≤ k then some (p.take k) else none
    | none => none

/-- Capture of `QUOTED_ARG0 = ^"([^"]+)"(?:\s|$)`: a leading `"`, a
nonempty run of non-quote characters, a closing `"`, then whitespace or
end of input. -/
def quotedArg0 (s : Str) : Option Str :=
  match s with
  | '"' :: rest =>
    let p := rest.takeWhile (· ≠ '"')
    if p.isEmpty then none
    else
      match rest.drop p.length with
      | '"' :: tail =>
        match tail with
        | [] => some p
        | t :: _ => if isWs t then some p else none
      | _ => none
  | _ => none

/-- Embedding of `DesktopEntry::get_arg0` from src/desktop_entry.rs. -/
def get_arg0 (exec_str : Str) : Str :=
  match nonquotedArg0 exec_str with
  | some g => g
  | none =>
    match quotedArg0 exec_str with
    | some g => g
    | none => exec_str

/-! ## C1 — `get_locale_keys` (src/lib.rs)

Each helper below implements `Regex::replace` (replace the first match)
or `Regex::is_match` for one of the five concrete patterns in the source,
with the regex crate's leftmost-first semantics. -/

/-- Replace-first of `ENCODING = \.[^@]+`: at the first `.` that is
followed by at least one non-`@` character, remove the `.` together with
the maximal following run of non-`@` characters. -/
def stripEncoding : Str → Str
  | [] => []
  | c :: rest =>
    if c = '.' then
      match rest with
      | [] => [c]
      | d :: _ => if d = '@' then c :: stripEncoding rest else rest.dropWhile (· ≠ '@')
    else c :: stripEncoding rest

/-- Is-match of `COUNTRY_AND_MODIFIER = _[^@]+@`. -/
def hasCountryAndModifier : Str → Bool
  | [] => false
  | c :: rest =>
    (c = '_' && !(rest.takeWhile (· ≠ '@')).isEmpty && !(rest.dropWhile (· ≠ '@')).isEmpty)
    || hasCountryAndModifier rest

/-- Replace-first of `MODIFIER = @.*`: remove everything from the first
`@` up to (but not including) the next newline, since `.` does not match
a newline. -/
def stripModifier : Str → Str
  | [] => []
  | c :: rest => if c = '@' then rest.dropWhile (· ≠ '\n') else c :: stripModifier rest

/-- Replace-first of `COUNTRY = _[^@]+`: at the first `_` followed by at
least one non-`@` character, remove the `_` together with the maximal
following run of non-`@` characters. -/
def stripCountry : Str → Str
  | [] => []
  | c :: rest =>
    if c = '_' then
      match rest with
      | [] => [c]
      | d :: _ => if d = '@' then c :: stripCountry rest else rest.dropWhile (· ≠ '@')
    else c :: stripCountry rest

/-- Replace-first of `COUNTRY_OR_MODIFIER = [_@].*`. -/
def stripCountryOrModifier : Str → Str
  | [] => []
  | c :: rest =>
    if c = '_' || c = '@' then rest.dropWhile (· ≠ '\n') else c :: stripCountryOrModifier rest

/-- Embedding of `get_locale_keys` from src/lib.rs. -/
def get_locale_keys (lc_messages : Str) : List Str :=
  let lc := stripEncoding lc_messages
  let suffixes := [lc]
  let suffixes :=
    if hasCountryAndModifier lc then suffixes ++ [stripModifier lc, stripCountry lc]
    else suffixes
  let lang := stripCountryOrModifier lc
  if lang ≠ lc then suffixes ++ [lang] else suffixes

/-! ## C5 — `DesktopEntry::parse` (src/desktop_entry.rs)

The parser is embedded over the list of lines of the file. File I/O and
the mtime read are abstracted: the lines and the mtime are parameters.
The `KV_PAIR` and `LOCALIZED_NAME` regexes are implemented as
deterministic scanners with the same leftmost-first semantics. -/

/-- The key character class `[A-Za-z0-9-]` of the `KV_PAIR` regex. -/
def isKeyChar (c : Char) : Bool :=
  ('A' ≤ c && c ≤ 'Z') || ('a' ≤ c && c ≤ 'z') || ('0' ≤ c && c ≤ '9') || c = '-'

/-- The `\s*=\s*(.*)$` tail of the `KV_PAIR` regex: skip whitespace,
expect `=`, skip whitespace, and capture the rest as the value. -/
def eqValuePart (key : Str) (r : Str) : Option (Str × Str) :=
  match r.dropWhile isWs with
  | '=' :: r2 => some (key, r2.dropWhile isWs)
  | _ => none

/-- The `KV_PAIR` regex `^([A-Za-z0-9-]+(?:\[[^]]+\])?)\s*=\s*(.*)$`,
returning the key capture and the value capture. -/
def parseKvLine (line : Str) : Option (Str × Str) :=
  let k := line.takeWhile isKeyChar
  if k.isEmpty then none
  else
    match line.drop k.length with
    | '[' :: t =>
      let b := t.takeWhile (· ≠ ']')
      if b.isEmpty then none
      else
        match t.drop b.length with
        | ']' :: t2 => eqValuePart (k ++ '[' :: (b ++ [']'])) t2
        | _ => none
    | rest => eqValuePart k rest

/-- The `LOCALIZED_NAME` regex `^Name\[([^]]+)\]$` applied to a key. -/
def localizedNameLocale (key : Str) : Option Str :=
  match key with
  | 'N' :: 'a' :: 'm' :: 'e' :: '[' :: t =>
    let b := t.takeWhile (· ≠ ']')
    if b.isEmpty then none
    else
      match t.drop b.length with
      | [']'] => some b
      | _ => none
  | _ => none

/-- The mutable locals of the parsing loop in `DesktopEntry::parse`. -/
structure ParseState where
  Name : Option Str
  Exec : Option Str
  TryExec : Option Str
  Path : Option Str
  Type_ : Option Str
  NoDisplay : Bool
  Hidden : Bool
  StartupNotify : Bool
  Terminal : Bool
  in_desktop_entry_section : Bool
  localized_name : Option Str
  localized_name_idx : Nat
deriving DecidableEq

/-- The initial values of the parse loop locals. -/
def initParseState : ParseState :=
  { Name := none, Exec := none, TryExec := none, Path := none, Type_ := none,
    NoDisplay := false, Hidden := false, StartupNotify := true, Terminal := false,
    in_desktop_entry_section := false, localized_name := none, localized_name_idx := 0 }

/-- One iteration of the line loop of `DesktopEntry::parse`. -/
def processLine (locale_keys : List Str) (st : ParseState) (rawLine : Str) : ParseState :=
  let line := trim rawLine
  match line with
  | [] => st
  | first :: _ =>
    if first = '[' then
      { st with in_desktop_entry_section := line = "[Desktop Entry]".data }
    else if !st.in_desktop_entry_section then st
    else if first = '#' then st
    else
      match parseKvLine line with
      | none => st
      | some (key, value) =>
        match localizedNameLocale key with
        | some locale =>
          match locale_keys.indexOf? locale with
          | some idx =>
            if st.localized_name = none || idx < st.localized_name_idx then
              { st with localized_name := some value, localized_name_idx := idx }
            else st
          | none => st
        | none =>
          if key = "Name".data then { st with Name := some value }
          else if key = "Exec".data then { st with Exec := some value }
          else if key = "TryExec".data then { st with TryExec := some value }
          else if key = "Path".data then { st with Path := some value }
          else if key = "Type".data then { st with Type_ := some value }
          else if key = "NoDisplay".data then { st with NoDisplay := value = "true".data }
          else if key = "Hidden".data then { st with Hidden := value = "true".data }
          else if key = "StartupNotify".data then { st with StartupNotify := value = "true".data }
          else if key = "Terminal".data then { st with Terminal := value = "true".data }
          else st

/-- The accumulation phase of `DesktopEntry::parse`: fold the line loop
over all lines of the file. -/
def accumulate (locale_keys : List Str) (lines : List Str) : ParseState :=
  lines.foldl (processLine locale_keys) initParseState

/-- The display name after the loop: the localized name takes priority
over the plain `Name`. -/
def resolvedName (st : ParseState) : Option Str :=
  match st.localized_name with
  | some n => some n
  | none => st.Name

/-- Result type of the embedded parser (the source uses
`Result<DesktopEntry, DesktopEntryError>`; I/O errors are outside the
embedding, so only the `ParseError` messages appear here). -/
inductive ParseResult where
  | ok (entry : DesktopEntry)
  | error (msg : Str)
deriving DecidableEq

/-- Embedding of `DesktopEntry::parse` from src/desktop_entry.rs, as a
function of the file path, the locale keys, the file's mtime and its
lines. -/
def parse (filepath : Str) (locale_keys : List Str) (mtime : Nat) (lines : List Str) :
    ParseResult :=
  let st := accumulate locale_keys lines
  match resolvedName st, st.Type_ with
  | _, none => .error "missing Type key".data
  | none, some _ => .error "missing Name key".data
  | some n, some t =>
    if st.Exec = none && t = "Application".data then .error "missing Exec key".data
    else
      .ok { Name := n, Exec := st.Exec, TryExec := st.TryExec, Path := st.Path,
            Type_ := t, NoDisplay := st.NoDisplay, Hidden := st.Hidden,
            StartupNotify := st.StartupNotify, Terminal := st.Terminal,
            location := filepath, mtime := mtime }

/-! ## Association-list model of `HashMap` -/

/-- Key membership, mirroring `HashMap::contains_key`. -/
def containsKey (m : List (Str × DesktopEntry)) (k : Str) : Bool :=
  m.any (fun p => p.1 = k)

/-- Lookup, mirroring `HashMap::get`. -/
def lookupKV : List (Str × DesktopEntry) → Str → Option DesktopEntry
  | [], _ => none
  | (k', v) :: rest, k => if k' = k then some v else lookupKV rest k

/-- Insert, mirroring `HashMap::insert`: replace the value when the key
is present, append a new binding otherwise. -/
def insertKV (m : List (Str × DesktopEntry)) (k : Str) (v : DesktopEntry) :
    List (Str × DesktopEntry) :=
  if containsKey m k then m.map (fun p => if p.1 = k then (k, v) else p)
  else m ++ [(k, v)]

/-! ## C6 — `get_cached_desktop_entries` (src/desktop_entry_cache.rs) -/

/-- The `CACHE_VERSION` constant from src/desktop_entry_cache.rs. -/
def CACHE_VERSION : Nat := 1

/-- Embedding of the `VersionedCacheForDeserialize` struct. -/
structure VersionedCache where
  version : Nat
  data : List DesktopEntry
deriving DecidableEq

/-- Embedding of `get_cached_desktop_entries` from
src/desktop_entry_cache.rs. `fs::read` is abstracted as its result
(`none` models any I/O error, including a missing file) and
`bincode::deserialize` as a function from the raw bytes to an optional
decoded cache (`none` models a deserialization failure). -/
def get_cached_desktop_entries (readResult : Option (List Nat))
    (deserialize : List Nat → Option VersionedCache) : List (Str × DesktopEntry) :=
  match readResult with
  | none => []
  | some contents =>
    match deserialize contents with
    | none => []
    | some cache =>
      if cache.version ≠ CACHE_VERSION then []
      else cache.data.foldl (fun apps e => insertKV apps e.location e) []

/-! ## C7 — unique display names (src/lib.rs) -/

/-- Decimal digit character, as produced by Rust's `{}` formatting of an
unsigned integer. -/
def decDigit (n : Nat) : Char :=
  match n with
  | 0 => '0' | 1 => '1' | 2 => '2' | 3 => '3' | 4 => '4'
  | 5 => '5' | 6 => '6' | 7 => '7' | 8 => '8' | _ => '9'

/-- Decimal representation of a natural number (most significant digit
first), as produced by Rust's `{}` formatting. -/
def natToDigits (n : Nat) : Str :=
  if _h : n < 10 then [decDigit n]
  else natToDigits (n / 10) ++ [decDigit (n % 10)]
decreasing_by exact Nat.div_lt_self (by omega) (by omega)

/-- The candidate name tried at loop counter `k` in
`get_unique_name_for_desktop_entry`: the bare name for `k = 1`, and
`format!("{} ({})", name, k)` afterwards. -/
def candidateName (base : Str) (k : Nat) : Str :=
  if k = 1 then base else base ++ ' ' :: '(' :: (natToDigits k ++ [')'])

/-- The `while existing_apps.contains_key(&name)` loop of
`get_unique_name_for_desktop_entry`, with explicit fuel. The fuel chosen
in `get_unique_name_for_desktop_entry` is proven sufficient below. -/
def uniqueNameGo (base : Str) (keys : List Str) : Nat → Nat → Str
  | 0, k => candidateName base k
  | fuel + 1, k =>
    if candidateName base k ∈ keys then uniqueNameGo base keys fuel (k + 1)
    else candidateName base k

/-- Embedding of `XDGManager::get_unique_name_for_desktop_entry` from
src/lib.rs, as a function of the entry's display name and the keys of the
map of already-inserted apps. -/
def get_unique_name_for_desktop_entry (base : Str) (keys : List Str) : Str :=
  uniqueNameGo base keys (keys.length + 1) 1

/-- The name-assignment and insertion step of the loop body of
`XDGManager::get_app_map` from src/lib.rs. -/
def insertApp (apps : List (Str × DesktopEntry)) (e : DesktopEntry) :
    List (Str × DesktopEntry) :=
  insertKV apps (get_unique_name_for_desktop_entry e.Name (apps.map Prod.fst)) e

/-- The aggregation pass of `XDGManager::get_app_map` from src/lib.rs,
abstracted over the list of desktop entries obtained from the visited
files, in visitation order. -/
def get_app_map (entries : List DesktopEntry) : List (Str × DesktopEntry) :=
  entries.foldl insertApp []

/-! ## C9 — `start_app_launcher` dispatch (src/lib.rs) -/

/-- Rust `str::rsplit_once(sep)`: split around the last occurrence of the
separator. -/
def rsplit_once (s : Str) (sep : Char) : Option (Str × Str) :=
  match s with
  | [] => none
  | c :: rest =>
    match rsplit_once rest sep with
    | some (l, r) => some (c :: l, r)
    | none => if c = sep then some ([], rest) else none

/-- The action taken by `start_app_launcher` after the chooser returns:
either launch a desktop entry with a list of extra arguments, or pass the
raw choice to i3 unresolved. -/
inductive LaunchAction where
  | entry (app : DesktopEntry) (extra_args : List Str)
  | raw (cmd : Str)
deriving DecidableEq

/-- Embedding of the dispatch logic of `XDGManager::start_app_launcher`
from src/lib.rs, as a function of the resolved name map and the string
returned by the chooser. -/
def start_app_launcher (app_map : List (Str × DesktopEntry)) (choice : Str) : LaunchAction :=
  match lookupKV app_map choice with
  | some app => .entry app []
  | none =>
    match rsplit_once choice ' ' with
    | some (left, right) =>
      match lookupKV app_map left with
      | some app => .entry app [right]
      | none => .raw choice
    | none => .raw choice

/-! ## C10 — `escape_chars`, `remove_invalid_tryexec`, `get_exec_str`
(src/desktop_entry.rs) -/

/-- Embedding of `DesktopEntry::escape_chars` from src/desktop_entry.rs:
the general descriptor string unescape rule. -/
def escape_chars : Str → Str
  | [] => []
  | c :: rest =>
    if c = '\\' then
      match rest with
      | [] => ['\\']
      | d :: rest2 =>
        (if d = 's' then [' ']
         else if d = 'n' then ['\n']
         else if d = 't' then ['\t']
         else if d = 'r' then ['\r']
         else if d = '\\' then ['\\']
         else ['\\', d]) ++ escape_chars rest2
    else c :: escape_chars rest

/-- Embedding of `DesktopEntry::escape_chars_for_exec_keys`. -/
def escape_chars_for_exec_keys (e : DesktopEntry) : DesktopEntry :=
  { e with TryExec := e.TryExec.map escape_chars, Exec := e.Exec.map escape_chars }

/-- Embedding of `DesktopEntry::remove_invalid_tryexec` from
src/desktop_entry.rs, parameterised by the abstract filesystem. -/
def remove_invalid_tryexec (fs : Str → Option Nat) (env_paths : List Str)
    (e : DesktopEntry) : DesktopEntry :=
  match e.TryExec with
  | none => e
  | some try_exec =>
    let arg0 := get_arg0 try_exec
    let try_exec_is_valid :=
      if arg0.contains '/' then is_executable fs arg0
      else env_paths.any (fun path => is_executable fs (join_path path arg0))
    if !try_exec_is_valid then { e with TryExec := none } else e

/-- Embedding of `DesktopEntry::get_exec_str`. The source unwraps
`self.Exec` in the `None` branch; the embedding returns `none` exactly
when that unwrap would panic. -/
def get_exec_str (e : DesktopEntry) : Option Str :=
  match e.TryExec with
  | some v => some v
  | none => e.Exec

/-- The two mutations a parsed record undergoes before launch. -/
inductive EntryMutation where
  | escapeExecKeys : EntryMutation
  | removeTryexec (fs : Str → Option Nat) (env_paths : List Str) : EntryMutation

/-- Apply one mutation to a record. -/
def applyEntryMutation (e : DesktopEntry) : EntryMutation → DesktopEntry
  | .escapeExecKeys => escape_chars_for_exec_keys e
  | .removeTryexec fs env_paths => remove_invalid_tryexec fs env_paths e

/-! # Theorems -/

/-! ## C8 -/

lemma escPair_quote : escPair '"' = ['\\', '"'] := rfl

lemma escPair_bs : escPair '\\' = ['\\', '\\'] := rfl

lemma escPair_other (c : Char) (h1 : c ≠ '"') (h2 : c ≠ '\\') : escPair c = [c] := by
  simp [escPair, h1, h2]

lemma unescapeBody_bs_quote (l : Str) :
    unescapeBody ('\\' :: '"' :: l) = '"' :: unescapeBody l := rfl

lemma unescapeBody_bs_bs (l : Str) :
    unescapeBody ('\\' :: '\\' :: l) = '\\' :: unescapeBody l := rfl

lemma unescapeBody_cons_other (c : Char) (hc : c ≠ '\\') (l : Str) :
    unescapeBody (c :: l) = c :: unescapeBody l := by
  unfold unescapeBody
  rw [if_neg hc, ← unescapeBody.eq_def]

lemma unescapeBody_flatMap (s : Str) : unescapeBody (s.flatMap escPair) = s := by
  induction s with
  | nil => rfl
  | cons c rest ih =>
    rw [List.flatMap_cons]
    by_cases h1 : c = '"'
    · subst h1
      rw [escPair_quote, List.cons_append, List.cons_append, List.nil_append,
        unescapeBody_bs_quote, ih]
    · by_cases h2 : c = '\\'
      · subst h2
        rw [escPair_bs, List.cons_append, List.cons_append, List.nil_append,
          unescapeBody_bs_bs, ih]
      · rw [escPair_other c h1 h2, List.singleton_append, unescapeBody_cons_other c h2, ih]

/-- C8: `escape_for_i3_exec` wraps its argument in double quotes,
backslash-escaping the double-quote and backslash characters inside it,
and the matching unquote (strip the outer quotes, drop one backslash
before each escaped `"` or `\`) recovers the original string exactly:
`unquote (escape_for_i3_exec s) = s` for every string `s`. -/
lemma unquote_quoted (rest : Str) :
    unquote ('"' :: rest) =
      if rest.getLast? = some '"' then unescapeBody rest.dropLast
      else unescapeBody ('"' :: rest) := rfl

theorem escape_for_i3_exec_roundtrip (s : Str) :
    unquote (escape_for_i3_exec s) = s := by
  have hlast : (s.flatMap escPair ++ ['"']).getLast? = some '"' := List.getLast?_concat _
  have hdrop : (s.flatMap escPair ++ ['"']).dropLast = s.flatMap escPair :=
    List.dropLast_concat
  rw [escape_for_i3_exec, List.cons_append, unquote_quoted, if_pos hlast, hdrop]
  exact unescapeBody_flatMap s

/-! ## C4 -/

/-- A filesystem with a single file whose permission mode `0o744` has the
owner execute bit set but not the group or other execute bits. -/
def fsOwnerExec : Str → Option Nat :=
  fun p => if p = "/usr/bin/tool".data then some 0o744 else none

/-- C4 counterexample: a file that exists and whose permission bits
include an execute bit (the owner bit, `0o100`) is nevertheless reported
as not executable, because the source tests `mode & 0o111 == 0o111`,
which demands all three execute bits. -/
theorem is_executable_owner_bit_counterexample :
    fsOwnerExec "/usr/bin/tool".data = some 0o744 ∧
    0o744 &&& 0o100 = 0o100 ∧
    is_executable fsOwnerExec "/usr/bin/tool".data = false := by
  decide

/-- C4 amended: `is_executable` returns true exactly when the file's
metadata is readable and its permission bits include all three execute
bits (owner, group and other); a file with only the owner execute bit
set does not count as executable. -/
theorem is_executable_iff_all_exec_bits (fs : Str → Option Nat) (path : Str) :
    is_executable fs path = true ↔ ∃ m, fs path = some m ∧ m &&& 0o111 = 0o111 := by
  unfold is_executable
  cases h : fs path with
  | none => simp
  | some m => simp [beq_iff_eq]

/-! ## C2 -/

/-- A concrete desktop entry used for evaluations. -/
def testEntry : DesktopEntry :=
  { Name := "TestApp".data, Exec := some "testapp".data, TryExec := none, Path := none,
    Type_ := "Application".data, NoDisplay := false, Hidden := false,
    StartupNotify := true, Terminal := false, location := "/apps/test.desktop".data,
    mtime := 0 }

/-- C2 counterexample: `%%` is not replaced by a literal `%` (the
`FIELD_CODE` regex `%[fFuUdDnNickvm]` cannot match `%%`), and an
unlisted two-character sequence such as `%z` is not replaced by the
empty string either; both are left unchanged. -/
theorem replace_field_codes_counterexample :
    replace_field_codes testEntry "%%".data [] = "%%".data ∧
    replace_field_codes testEntry "%%".data [] ≠ "%".data ∧
    replace_field_codes testEntry "%z".data [] = "%z".data ∧
    replace_field_codes testEntry "%z".data [] ≠ [] := by
  decide

lemma replaceFieldCodesGo_cons_other (e : DesktopEntry) (fa aa : Str) (c : Char)
    (hc : c ≠ '%') (l : Str) :
    replaceFieldCodesGo e fa aa (c :: l) = c :: replaceFieldCodesGo e fa aa l := by
  unfold replaceFieldCodesGo
  rw [if_neg hc, ← replaceFieldCodesGo.eq_def]

lemma replaceFieldCodesGo_code (e : DesktopEntry) (fa aa : Str) (d : Char)
    (hd : fieldCodeClass d = true) (l : Str) :
    replaceFieldCodesGo e fa aa ('%' :: d :: l) =
      fieldCodeValue e fa aa d ++ replaceFieldCodesGo e fa aa l := by
  rw [replaceFieldCodesGo]
  simp only [if_pos rfl, hd, if_true]

lemma replaceFieldCodesGo_noncode (e : DesktopEntry) (fa aa : Str) (x : Char)
    (hx : fieldCodeClass x = false) (l : Str) :
    replaceFieldCodesGo e fa aa ('%' :: x :: l) =
      '%' :: replaceFieldCodesGo e fa aa (x :: l) := by
  rw [replaceFieldCodesGo]
  simp only [if_pos rfl, hx, if_false, Bool.false_eq_true, if_true]

lemma replaceFieldCodesGo_append_of_no_pct (e : DesktopEntry) (fa aa : Str)
    (pre rest : Str) (hpre : '%' ∉ pre) :
    replaceFieldCodesGo e fa aa (pre ++ rest) = pre ++ replaceFieldCodesGo e fa aa rest := by
  induction pre with
  | nil => rfl
  | cons c p ih =>
    have hc : c ≠ '%' := fun h => hpre (h ▸ List.mem_cons_self c p)
    have hp : '%' ∉ p := fun h => hpre (List.mem_cons_of_mem c h)
    rw [List.cons_append, replaceFieldCodesGo_cons_other e fa aa c hc, ih hp, List.cons_append]

/-- C2 amended: `replace_field_codes` performs a single left-to-right
pass replacing each occurrence of `%` followed by one of the thirteen
letters `f F u U d D n N i c k v m` by the table value (`%f`/`%u` → the
first extra argument, `%F`/`%U` → all extra arguments joined by spaces,
`%c` → the record's name, `%k` → the record's source path, and
`%i %d %D %n %N %v %m` → the empty string); a `%` followed by any other
character — including another `%` — is copied literally, with scanning
resuming at that following character, so `%%` is not collapsed and
unknown `%x` sequences are not deleted. -/
theorem replace_field_codes_table (e : DesktopEntry) (extra_args : List Str)
    (pre post : Str) (hpre : '%' ∉ pre) :
    (∀ d, fieldCodeClass d = true →
      replace_field_codes e (pre ++ '%' :: d :: post) extra_args =
        pre ++ fieldCodeValue e ((extra_args.head?).getD []) (List.intercalate [' '] extra_args) d
            ++ replace_field_codes e post extra_args) ∧
    (∀ x, fieldCodeClass x = false →
      replace_field_codes e (pre ++ '%' :: x :: post) extra_args =
        pre ++ '%' :: replace_field_codes e (x :: post) extra_args) ∧
    fieldCodeValue e ((extra_args.head?).getD []) (List.intercalate [' '] extra_args) 'f'
      = (extra_args.head?).getD [] ∧
    fieldCodeValue e ((extra_args.head?).getD []) (List.intercalate [' '] extra_args) 'F'
      = List.intercalate [' '] extra_args ∧
    fieldCodeValue e ((extra_args.head?).getD []) (List.intercalate [' '] extra_args) 'i' = [] ∧
    fieldCodeValue e ((extra_args.head?).getD []) (List.intercalate [' '] extra_args) 'c' = e.Name ∧
    fieldCodeValue e ((extra_args.head?).getD []) (List.intercalate [' '] extra_args) 'k'
      = e.location ∧
    fieldCodeValue e ((extra_args.head?).getD []) (List.intercalate [' '] extra_args) 'd' = [] := by
  refine ⟨?_, ?_, rfl, rfl, rfl, rfl, rfl, rfl⟩
  · intro d hd
    unfold replace_field_codes
    rw [replaceFieldCodesGo_append_of_no_pct e _ _ pre _ hpre,
      replaceFieldCodesGo_code e _ _ d hd, List.append_assoc]
  · intro x hx
    unfold replace_field_codes
    rw [replaceFieldCodesGo_append_of_no_pct e _ _ pre _ hpre,
      replaceFieldCodesGo_noncode e _ _ x hx]

/-- C2 amended witness at concrete inputs. -/
theorem replace_field_codes_table_witness :
    '%' ∉ "app ".data ∧
    fieldCodeClass 'f' = true ∧
    replace_field_codes testEntry "app %f end".data ["/tmp/x".data] =
      "app ".data ++ "/tmp/x".data ++ replace_field_codes testEntry " end".data ["/tmp/x".data] := by
  refine ⟨by decide, by decide, ?_⟩
  have h := (replace_field_codes_table testEntry ["/tmp/x".data] "app ".data " end".data
    (by decide)).1 'f' (by decide)
  simpa using h

/-! ## Association-list lemmas -/

lemma containsKey_eq_true_iff (m : List (Str × DesktopEntry)) (k : Str) :
    containsKey m k = true ↔ k ∈ m.map Prod.fst := by
  unfold containsKey
  simp only [List.any_eq_true, decide_eq_true_eq, List.mem_map]

lemma insertKV_of_not_contains (m : List (Str × DesktopEntry)) (k : Str) (v : DesktopEntry)
    (h : k ∉ m.map Prod.fst) : insertKV m k v = m ++ [(k, v)] := by
  unfold insertKV
  rw [if_neg (fun hc => h ((containsKey_eq_true_iff m k).1 hc))]

lemma foldl_insert_locations (l : List DesktopEntry) (acc : List (Str × DesktopEntry))
    (hdis : ∀ e ∈ l, e.location ∉ acc.map Prod.fst)
    (hnd : (l.map (fun e => e.location)).Nodup) :
    l.foldl (fun apps e => insertKV apps e.location e) acc =
      acc ++ l.map (fun e => (e.location, e)) := by
  induction l generalizing acc with
  | nil => simp
  | cons a l ih =>
    rw [List.foldl_cons,
      insertKV_of_not_contains acc a.location a (hdis a (List.mem_cons_self a l))]
    rw [List.map_cons, List.nodup_cons] at hnd
    have hdis' : ∀ e ∈ l, e.location ∉ (acc ++ [(a.location, a)]).map Prod.fst := by
      intro e he
      rw [List.map_append, List.mem_append]
      rintro (h1 | h2)
      · exact hdis e (List.mem_cons_of_mem a he) h1
      · have : e.location = a.location := by simpa using h2
        exact hnd.1 (this ▸ List.mem_map_of_mem (fun e => e.location) he)
    rw [ih (acc ++ [(a.location, a)]) hdis' hnd.2, List.append_assoc]
    rfl

lemma lookupKV_location_map (l : List DesktopEntry)
    (hnd : (l.map (fun e => e.location)).Nodup) (e : DesktopEntry) (he : e ∈ l) :
    lookupKV (l.map fun e => (e.location, e)) e.location = some e := by
  induction l with
  | nil => cases he
  | cons a l ih =>
    rw [List.map_cons, List.nodup_cons] at hnd
    rcases List.mem_cons.1 he with rfl | he'
    · rw [List.map_cons]
      unfold lookupKV
      rw [if_pos rfl]
    · have hne : a.location ≠ e.location := by
        intro h
        exact hnd.1 (h ▸ List.mem_map_of_mem (fun e => e.location) he')
      rw [List.map_cons]
      unfold lookupKV
      rw [if_neg hne]
      exact ih hnd.2 he'

/-! ## C3 -/

/-- C3: evaluation of `get_arg0` at the failing input. For an exec
string with no double quote but containing whitespace, the greedy
`NONQUOTED_ARG0` capture `([^"]+)` runs to the end of the string (the
class `[^"]` includes whitespace, and the terminator `(?:\s|$)` is
satisfied by `$`), so the whole string is returned rather than the
leading run up to the first whitespace character. -/
theorem get_arg0_at_failing_input :
    get_arg0 "notify-send hello".data = "notify-send hello".data ∧
    get_arg0 "notify-send hello".data ≠ "notify-send".data := by
  decide

/-! ## C6 -/

/-- C6: `get_cached_desktop_entries` returns the empty map for every
failure state — a missing or unreadable cache file (`readResult = none`),
a payload that fails deserialization, or a payload whose version tag
differs from the engine's `CACHE_VERSION` — and surfaces no error to the
caller (its return type is the map itself, so there is no error channel);
a successful load returns the stored records keyed by their source path. -/
theorem get_cached_desktop_entries_spec (readResult : Option (List Nat))
    (deserialize : List Nat → Option VersionedCache) :
    (readResult = none → get_cached_desktop_entries readResult deserialize = []) ∧
    (∀ contents, readResult = some contents → deserialize contents = none →
      get_cached_desktop_entries readResult deserialize = []) ∧
    (∀ contents cache, readResult = some contents → deserialize contents = some cache →
      cache.version ≠ CACHE_VERSION →
      get_cached_desktop_entries readResult deserialize = []) ∧
    (∀ contents cache, readResult = some contents → deserialize contents = some cache →
      cache.version = CACHE_VERSION → (cache.data.map (fun e => e.location)).Nodup →
      ∀ e ∈ cache.data,
        lookupKV (get_cached_desktop_entries readResult deserialize) e.location = some e) := by
  refine ⟨?_, ?_, ?_, ?_⟩
  · intro h
    simp only [get_cached_desktop_entries.eq_def, h]
  · intro contents h1 h2
    simp only [get_cached_desktop_entries.eq_def, h1, h2]
  · intro contents cache h1 h2 h3
    simp only [get_cached_desktop_entries.eq_def, h1, h2, if_pos h3]
  · intro contents cache h1 h2 h3 hnd e he
    simp only [get_cached_desktop_entries.eq_def, h1, h2, h3,
      if_neg (by simp : ¬ CACHE_VERSION ≠ CACHE_VERSION)]
    rw [foldl_insert_locations cache.data [] (by simp) hnd, List.nil_append]
    exact lookupKV_location_map cache.data hnd e he

/-- C6 witness: the theorem applied to four concrete cache states: a
missing file, a failing deserialization, a version mismatch (version 2
against `CACHE_VERSION = 1`), and a successful load of one record. -/
theorem get_cached_desktop_entries_spec_witness :
    get_cached_desktop_entries none (fun _ => none) = [] ∧
    get_cached_desktop_entries (some [0]) (fun _ => none) = [] ∧
    get_cached_desktop_entries (some [0]) (fun _ => some ⟨2, [testEntry]⟩) = [] ∧
    lookupKV (get_cached_desktop_entries (some [0]) (fun _ => some ⟨1, [testEntry]⟩))
      testEntry.location = some testEntry := by
  refine ⟨(get_cached_desktop_entries_spec none _).1 rfl,
    (get_cached_desktop_entries_spec (some [0]) _).2.1 [0] rfl rfl,
    (get_cached_desktop_entries_spec (some [0]) _).2.2.1 [0] ⟨2, [testEntry]⟩ rfl rfl
      (by decide),
    (get_cached_desktop_entries_spec (some [0]) _).2.2.2 [0] ⟨1, [testEntry]⟩ rfl rfl rfl
      (by simp) testEntry (by simp)⟩

/-! ## C9 -/

lemma rsplit_once_eq_none_iff (s : Str) (sep : Char) :
    rsplit_once s sep = none ↔ sep ∉ s := by
  induction s with
  | nil => simp [rsplit_once]
  | cons c rest ih =>
    rw [rsplit_once]
    cases h : rsplit_once rest sep with
    | some p =>
      simp only []
      constructor
      · intro h'
        cases h'
      · intro h'
        have : sep ∉ rest := fun hm => h' (List.mem_cons_of_mem c hm)
        rw [ih.2 this] at h
        cases h
    | none =>
      by_cases hc : c = sep
      · subst hc
        simp only [if_pos rfl]
        constructor
        · intro h'
          cases h'
        · intro h'
          exact absurd (List.mem_cons_self c rest) h'
      · simp only [if_neg hc]
        have hrest : sep ∉ rest := ih.1 h
        constructor
        · intro _ hmem
          rcases List.mem_cons.1 hmem with h' | h'
          · exact hc h'.symm
          · exact hrest h'
        · intro _
          trivial

lemma rsplit_once_eq_some (s l r : Str) (sep : Char)
    (h : rsplit_once s sep = some (l, r)) : s = l ++ sep :: r ∧ sep ∉ r := by
  induction s generalizing l with
  | nil => cases h
  | cons c rest ih =>
    rw [rsplit_once] at h
    cases hr : rsplit_once rest sep with
    | some p =>
      cases p with
      | mk l' r' =>
        rw [hr] at h
        simp only [Option.some_inj, Prod.mk.injEq] at h
        obtain ⟨hl, hr'⟩ := h
        subst hr'
        obtain ⟨hrest, hnot⟩ := ih l' hr
        subst hl
        subst hrest
        exact ⟨rfl, hnot⟩
    | none =>
      rw [hr] at h
      by_cases hc : c = sep
      · rw [if_pos hc] at h
        simp only [Option.some_inj, Prod.mk.injEq] at h
        obtain ⟨hl, hr'⟩ := h
        subst hl
        subst hr'
        subst hc
        exact ⟨rfl, (rsplit_once_eq_none_iff rest c).1 hr⟩
      · rw [if_neg hc] at h
        cases h

lemma rsplit_once_of_decomp (l r : Str) (sep : Char) (hr : sep ∉ r) :
    rsplit_once (l ++ sep :: r) sep = some (l, r) := by
  induction l with
  | nil =>
    rw [List.nil_append, rsplit_once, (rsplit_once_eq_none_iff r sep).2 hr, if_pos rfl]
  | cons c l ih =>
    rw [List.cons_append, rsplit_once, ih]

/-- C9 counterexample: extra freeform text containing a space does not
resolve the record. With only `Firefox` offered, the choice
`Firefox a b` — an offered name followed by a single space and the extra
text `a b` — is split by `rsplit_once` at the *last* space into
`("Firefox a", "b")`; `Firefox a` is not an offered name, so the whole
string is passed raw instead of launching `Firefox` with `a b` as one
extra argument token. -/
theorem start_app_launcher_freeform_counterexample :
    lookupKV [("Firefox".data, testEntry)] "Firefox".data = some testEntry ∧
    "Firefox a b".data = "Firefox".data ++ ' ' :: "a b".data ∧
    start_app_launcher [("Firefox".data, testEntry)] "Firefox a b".data =
      .raw "Firefox a b".data ∧
    start_app_launcher [("Firefox".data, testEntry)] "Firefox a b".data ≠
      .entry testEntry ["a b".data] := by
  decide

/-- C9 amended: dispatch of the chooser result in `start_app_launcher`.
If the choice equals an offered name, that record is launched with no
extra arguments; if the choice is an offered name followed by a single
space and extra text containing no further space (a single argument
token), that record is launched with the extra text as one extra
argument — the split is taken at the last space, so extra text
containing a space does not resolve the record; otherwise the choice is
passed unresolved as a raw command line. -/
theorem start_app_launcher_dispatch (app_map : List (Str × DesktopEntry)) (choice : Str) :
    (∀ app, lookupKV app_map choice = some app →
      start_app_launcher app_map choice = .entry app []) ∧
    (∀ name extra app, lookupKV app_map choice = none →
      choice = name ++ ' ' :: extra → ' ' ∉ extra →
      lookupKV app_map name = some app →
      start_app_launcher app_map choice = .entry app [extra]) ∧
    (lookupKV app_map choice = none →
      (∀ name extra, choice = name ++ ' ' :: extra → ' ' ∉ extra →
        lookupKV app_map name = none) →
      start_app_launcher app_map choice = .raw choice) := by
  refine ⟨?_, ?_, ?_⟩
  · intro app h
    simp only [start_app_launcher, h]
  · intro name extra app h hc hsp hname
    have hsplit : rsplit_once choice ' ' = some (name, extra) := by
      rw [hc]
      exact rsplit_once_of_decomp name extra ' ' hsp
    simp only [start_app_launcher, h, hsplit, hname]
  · intro h hnone
    cases hr : rsplit_once choice ' ' with
    | none => simp only [start_app_launcher, h, hr]
    | some p =>
      cases p with
      | mk l r =>
        obtain ⟨hdec, hnot⟩ := rsplit_once_eq_some choice l r ' ' hr
        simp only [start_app_launcher, h, hr, hnone l r hdec hnot]

/-- C9 witness: the theorem applied to a one-entry map and three concrete
chooser results. -/
theorem start_app_launcher_dispatch_witness :
    start_app_launcher [("TestApp".data, testEntry)] "TestApp".data =
      .entry testEntry [] ∧
    start_app_launcher [("TestApp".data, testEntry)] "TestApp hello".data =
      .entry testEntry ["hello".data] ∧
    start_app_launcher [("TestApp".data, testEntry)] "xyz".data = .raw "xyz".data := by
  refine ⟨(start_app_launcher_dispatch _ _).1 testEntry (by decide),
    (start_app_launcher_dispatch _ _).2.1 "TestApp".data "hello".data testEntry
      (by decide) (by decide) (by decide) (by decide),
    (start_app_launcher_dispatch _ _).2.2 (by decide) ?_⟩
  intro name extra heq _
  exfalso
  have hmem : ' ' ∈ name ++ ' ' :: extra :=
    List.mem_append_right name (List.mem_cons_self ' ' extra)
  rw [← heq] at hmem
  exact absurd hmem (by decide)

/-! ## C5 -/

/-- C5: validation in `DesktopEntry::parse`. If the scan of the main
section yields no `Type` key, parsing fails with "missing Type key"
(regardless of the other keys); if it yields `Type=Application`, a name,
and no `Exec` key, parsing fails with "missing Exec key"; if it yields a
`Type` other than `Application` and a name, parsing succeeds without any
`Exec` key; and the checks are applied in the order Type, Name, Exec
(with no Type and no name, the Type error wins; with a Type and no name,
the Name error wins). -/
theorem parse_validation (filepath : Str) (locale_keys : List Str) (mtime : Nat)
    (lines : List Str) :
    ((accumulate locale_keys lines).Type_ = none →
      parse filepath locale_keys mtime lines = .error "missing Type key".data) ∧
    (∀ t, (accumulate locale_keys lines).Type_ = some t →
      resolvedName (accumulate locale_keys lines) = none →
      parse filepath locale_keys mtime lines = .error "missing Name key".data) ∧
    ((accumulate locale_keys lines).Type_ = some "Application".data →
      resolvedName (accumulate locale_keys lines) ≠ none →
      (accumulate locale_keys lines).Exec = none →
      parse filepath locale_keys mtime lines = .error "missing Exec key".data) ∧
    (∀ t, (accumulate locale_keys lines).Type_ = some t → t ≠ "Application".data →
      resolvedName (accumulate locale_keys lines) ≠ none →
      ∃ e, parse filepath locale_keys mtime lines = .ok e ∧ e.Type_ = t ∧
        e.Exec = (accumulate locale_keys lines).Exec) := by
  refine ⟨?_, ?_, ?_, ?_⟩
  · intro hT
    rw [parse, hT]
    cases resolvedName (accumulate locale_keys lines) <;> rfl
  · intro t hT hN
    rw [parse, hT, hN]
  · intro hT hN hE
    cases hn : resolvedName (accumulate locale_keys lines) with
    | none => exact absurd hn hN
    | some n =>
      rw [parse, hT, hn]
      simp only [hE, if_pos]
      rw [if_pos (by simp)]
  · intro t hT hAppl hN
    cases hn : resolvedName (accumulate locale_keys lines) with
    | none => exact absurd hn hN
    | some n =>
      rw [parse, hT, hn]
      have hfalse : decide (t = "Application".data) = false := decide_eq_false hAppl
      simp only [hfalse, Bool.and_false, Bool.false_eq_true, if_false]
      exact ⟨_, rfl, rfl, rfl⟩

/-- C5 witness: the theorem applied to three concrete descriptor files:
one with no `Type` key, one with `Type=Application` and no `Exec`, and
one with `Type=Link`, a `Name` and no `Exec`. -/
theorem parse_validation_witness :
    parse "/x".data [] 0 ["[Desktop Entry]".data, "Name=Foo".data] =
      .error "missing Type key".data ∧
    parse "/x".data [] 0 ["[Desktop Entry]".data, "Type=Application".data, "Name=Foo".data] =
      .error "missing Exec key".data ∧
    (∃ e, parse "/x".data [] 0
        ["[Desktop Entry]".data, "Type=Link".data, "Name=Foo".data] = .ok e ∧
      e.Type_ = "Link".data ∧
      e.Exec = (accumulate [] ["[Desktop Entry]".data, "Type=Link".data, "Name=Foo".data]).Exec) := by
  refine ⟨(parse_validation "/x".data [] 0 _).1 (by decide),
    (parse_validation "/x".data [] 0 _).2.2.1 (by decide) (by decide) (by decide),
    (parse_validation "/x".data [] 0 _).2.2.2 "Link".data (by decide) (by decide) (by decide)⟩

/-! ## C10 -/

lemma parse_ok_application_exec_isSome (filepath : Str) (locale_keys : List Str)
    (mtime : Nat) (lines : List Str) (e0 : DesktopEntry)
    (hp : parse filepath locale_keys mtime lines = .ok e0)
    (happ : e0.Type_ = "Application".data) : e0.Exec.isSome := by
  rw [parse] at hp
  cases hT : (accumulate locale_keys lines).Type_ with
  | none =>
    cases hn : resolvedName (accumulate locale_keys lines) <;>
      simp only [hn, hT] at hp <;> cases hp
  | some t =>
    cases hn : resolvedName (accumulate locale_keys lines) with
    | none =>
      simp only [hn, hT] at hp
      cases hp
    | some n =>
      simp only [hn, hT] at hp
      cases hcond : (decide ((accumulate locale_keys lines).Exec = none) &&
          decide (t = "Application".data)) with
      | true =>
        rw [if_pos hcond] at hp
        cases hp
      | false =>
        rw [if_neg (by simp [hcond])] at hp
        have he : e0.Exec = (accumulate locale_keys lines).Exec := by
          cases hp
          rfl
        have ht : e0.Type_ = t := by
          cases hp
          rfl
        rw [happ] at ht
        have h2 : decide (t = "Application".data) = true := by
          rw [← ht]
          simp
        have h1 : decide ((accumulate locale_keys lines).Exec = none) = false := by
          cases h1 : decide ((accumulate locale_keys lines).Exec = none) with
          | false => rfl
          | true => rw [h1, h2] at hcond; cases hcond
        have : (accumulate locale_keys lines).Exec ≠ none := of_decide_eq_false h1
        rw [he]
        cases hacc : (accumulate locale_keys lines).Exec with
        | none => exact absurd hacc this
        | some v => rfl

lemma exec_isSome_applyEntryMutation (e : DesktopEntry) (m : EntryMutation)
    (h : e.Exec.isSome) : (applyEntryMutation e m).Exec.isSome := by
  cases m with
  | escapeExecKeys =>
    cases he : e.Exec with
    | none => rw [he] at h; cases h
    | some v => simp [applyEntryMutation, escape_chars_for_exec_keys, he]
  | removeTryexec fs env_paths =>
    dsimp only [applyEntryMutation, remove_invalid_tryexec]
    cases e.TryExec with
    | none => exact h
    | some t =>
      dsimp only
      split <;> split <;> exact h

lemma exec_isSome_foldl_mutations (muts : List EntryMutation) (e : DesktopEntry)
    (h : e.Exec.isSome) : ((muts.foldl applyEntryMutation e)).Exec.isSome := by
  induction muts generalizing e with
  | nil => exact h
  | cons m ms ih =>
    rw [List.foldl_cons]
    exact ih (applyEntryMutation e m) (exec_isSome_applyEntryMutation e m h)

/-- C10: for every record produced by a successful `parse` with
`Type == "Application"`, and after any sequence of
`escape_chars_for_exec_keys` and `remove_invalid_tryexec` applications,
`get_exec_str` does not panic: its `Exec`-unwrap branch (modelled by the
`none` result) is never reached, because `parse` guarantees `Exec` is
present for Application records and neither mutation ever clears
`Exec`. -/
theorem get_exec_str_no_panic (filepath : Str) (locale_keys : List Str) (mtime : Nat)
    (lines : List Str) (e0 : DesktopEntry)
    (hp : parse filepath locale_keys mtime lines = .ok e0)
    (happ : e0.Type_ = "Application".data) (muts : List EntryMutation) :
    (get_exec_str (muts.foldl applyEntryMutation e0)).isSome := by
  have h := exec_isSome_foldl_mutations muts e0
    (parse_ok_application_exec_isSome filepath locale_keys mtime lines e0 hp happ)
  rw [get_exec_str]
  cases ht : (muts.foldl applyEntryMutation e0).TryExec with
  | some v => rfl
  | none =>
    cases he : (muts.foldl applyEntryMutation e0).Exec with
    | none => rw [he] at h; cases h
    | some v => rfl

/-- The desktop entry produced by parsing the concrete Application file
used in the C10 witness. -/
def appEntry : DesktopEntry :=
  { Name := "Foo".data, Exec := some "foo".data, TryExec := none, Path := none,
    Type_ := "Application".data, NoDisplay := false, Hidden := false,
    StartupNotify := true, Terminal := false, location := "/x".data, mtime := 0 }

/-- C10 witness: the theorem applied to a concrete Application file and
the mutation sequence consisting of the escape pass followed by a
`TryExec` validity check against an empty filesystem. -/
theorem get_exec_str_no_panic_witness :
    (get_exec_str ([EntryMutation.escapeExecKeys,
        EntryMutation.removeTryexec (fun _ => none) []].foldl applyEntryMutation
      appEntry)).isSome :=
  get_exec_str_no_panic "/x".data [] 0
    ["[Desktop Entry]".data, "Type=Application".data, "Name=Foo".data, "Exec=foo".data]
    appEntry (by decide) (by decide) _

/-! ## C7 -/

/-- Decimal value of a digit string, inverse of `natToDigits`. -/
def digitsVal (l : Str) : Nat :=
  l.foldl (fun a c => a * 10 + (c.toNat - 48)) 0

lemma toNat_decDigit_sub (n : Nat) (h : n < 10) : (decDigit n).toNat - 48 = n := by
  interval_cases n <;> rfl

lemma digitsVal_concat (l : Str) (c : Char) :
    digitsVal (l ++ [c]) = digitsVal l * 10 + (c.toNat - 48) := by
  unfold digitsVal
  rw [List.foldl_append]
  rfl

lemma digitsVal_natToDigits (n : Nat) : digitsVal (natToDigits n) = n := by
  induction n using Nat.strong_induction_on with
  | _ n ih =>
    rw [natToDigits]
    split
    · rename_i h
      show 0 * 10 + ((decDigit n).toNat - 48) = n
      rw [toNat_decDigit_sub n h]
      omega
    · rename_i h
      rw [digitsVal_concat, ih (n / 10) (Nat.div_lt_self (by omega) (by omega)),
        toNat_decDigit_sub (n % 10) (Nat.mod_lt n (by omega))]
      omega

lemma natToDigits_inj (j k : Nat) (h : natToDigits j = natToDigits k) : j = k := by
  rw [← digitsVal_natToDigits j, ← digitsVal_natToDigits k, h]

lemma natToDigits_ne_nil (n : Nat) : natToDigits n ≠ [] := by
  rw [natToDigits]
  split <;> simp

lemma candidateName_one (base : Str) : candidateName base 1 = base := if_pos rfl

lemma candidateName_of_ne_one (base : Str) (k : Nat) (hk : k ≠ 1) :
    candidateName base k = base ++ ' ' :: '(' :: (natToDigits k ++ [')']) := if_neg hk

lemma candidateName_inj (base : Str) (j k : Nat)
    (h : candidateName base j = candidateName base k) : j = k := by
  by_cases hj : j = 1 <;> by_cases hk : k = 1
  · rw [hj, hk]
  · exfalso
    rw [hj, candidateName_one, candidateName_of_ne_one base k hk] at h
    have := congrArg List.length h
    simp at this
  · exfalso
    rw [hk, candidateName_one, candidateName_of_ne_one base j hj] at h
    have := congrArg List.length h
    simp at this
  · rw [candidateName_of_ne_one base j hj, candidateName_of_ne_one base k hk] at h
    have h1 := List.append_cancel_left h
    have h2 : natToDigits j ++ [')'] = natToDigits k ++ [')'] := by
      injection h1 with _ h1'
      injection h1' with _ h1''
    exact natToDigits_inj j k (List.append_cancel_right h2)

lemma exists_free_candidate (base : Str) (keys : List Str) :
    ∃ j, 1 ≤ j ∧ j ≤ keys.length + 1 ∧ candidateName base j ∉ keys := by
  by_contra hcon
  push_neg at hcon
  have hmaps : ∀ j ∈ Finset.Icc 1 (keys.length + 1), candidateName base j ∈ keys.toFinset := by
    intro j hj
    rw [Finset.mem_Icc] at hj
    exact List.mem_toFinset.2 (hcon j hj.1 hj.2)
  have hinj : Set.InjOn (candidateName base) (Finset.Icc 1 (keys.length + 1)) := by
    intro a _ b _ hab
    exact candidateName_inj base a b hab
  have hcard := Finset.card_le_card_of_injOn (candidateName base) hmaps hinj
  rw [Nat.card_Icc] at hcard
  have hle : keys.toFinset.card ≤ keys.length := List.toFinset_card_le keys
  omega

lemma uniqueNameGo_succ (base : Str) (keys : List Str) (fuel k : Nat) :
    uniqueNameGo base keys (fuel + 1) k =
      if candidateName base k ∈ keys then uniqueNameGo base keys fuel (k + 1)
      else candidateName base k := rfl

lemma uniqueNameGo_not_mem (base : Str) (keys : List Str) (fuel : Nat) :
    ∀ k, (∃ j, k ≤ j ∧ j < k + fuel ∧ candidateName base j ∉ keys) →
      uniqueNameGo base keys fuel k ∉ keys := by
  induction fuel with
  | zero =>
    intro k h
    obtain ⟨j, h1, h2, _⟩ := h
    omega
  | succ fuel ih =>
    intro k h
    rw [uniqueNameGo_succ]
    by_cases hmem : candidateName base k ∈ keys
    · rw [if_pos hmem]
      apply ih (k + 1)
      obtain ⟨j, h1, h2, h3⟩ := h
      have hjk : j ≠ k := fun hk => h3 (hk ▸ hmem)
      exact ⟨j, by omega, by omega, h3⟩
    · rw [if_neg hmem]
      exact hmem

lemma get_unique_name_not_mem (base : Str) (keys : List Str) :
    get_unique_name_for_desktop_entry base keys ∉ keys := by
  apply uniqueNameGo_not_mem base keys (keys.length + 1) 1
  obtain ⟨j, h1, h2, h3⟩ := exists_free_candidate base keys
  exact ⟨j, h1, by omega, h3⟩

lemma get_app_map_aux_nodup (entries : List DesktopEntry)
    (acc : List (Str × DesktopEntry)) (hnd : (acc.map Prod.fst).Nodup) :
    ((entries.foldl insertApp acc).map Prod.fst).Nodup := by
  induction entries generalizing acc with
  | nil => exact hnd
  | cons e entries ih =>
    rw [List.foldl_cons]
    apply ih
    rw [insertApp, insertKV_of_not_contains acc _ e
      (get_unique_name_not_mem e.Name (acc.map Prod.fst))]
    rw [List.map_append]
    simp only [List.map_cons, List.map_nil]
    rw [List.nodup_append]
    refine ⟨hnd, List.nodup_singleton _, ?_⟩
    intro x hx hx'
    have : x = get_unique_name_for_desktop_entry e.Name (acc.map Prod.fst) := by
      simpa using hx'
    exact get_unique_name_not_mem e.Name (acc.map Prod.fst) (this ▸ hx)

/-- C7: display-name uniqueness. (a) In the map built by the aggregation
pass, no key is ever overwritten: the assigned names are pairwise
distinct. (b) A record whose name is not yet taken keeps the unsuffixed
name. (c) A record whose name is taken, with `name (2)` free, is
assigned `name (2)` — the suffix counter starts at 2 and scans upward
until a free name is found. -/
theorem unique_display_names (entries : List DesktopEntry) (base : Str) (keys : List Str) :
    ((get_app_map entries).map Prod.fst).Nodup ∧
    (base ∉ keys → get_unique_name_for_desktop_entry base keys = base) ∧
    (base ∈ keys → base ++ " (2)".data ∉ keys →
      get_unique_name_for_desktop_entry base keys = base ++ " (2)".data) := by
  refine ⟨get_app_map_aux_nodup entries [] (by simp), ?_, ?_⟩
  · intro h
    rw [get_unique_name_for_desktop_entry, uniqueNameGo_succ,
      if_neg (by rw [candidateName_one]; exact h), candidateName_one]
  · intro h1 h2
    have hd2 : natToDigits 2 = ['2'] := by
      rw [natToDigits, dif_pos (by omega : (2 : Nat) < 10)]
      rfl
    have hc2 : candidateName base 2 = base ++ " (2)".data := by
      rw [candidateName_of_ne_one base 2 (by omega), hd2]
      rfl
    have hlen : 1 ≤ keys.length := List.length_pos.2 (fun hnil => by simp [hnil] at h1)
    rw [get_unique_name_for_desktop_entry]
    cases hL : keys.length with
    | zero => omega
    | succ L =>
      rw [uniqueNameGo_succ, if_pos (by rw [candidateName_one]; exact h1),
        uniqueNameGo_succ, if_neg (by rw [hc2]; exact h2), hc2]

/-- C7 witness: the theorem applied to a singleton entry list and to the
concrete clash of two records named `Firefox`. -/
theorem unique_display_names_witness :
    ((get_app_map [testEntry]).map Prod.fst).Nodup ∧
    get_unique_name_for_desktop_entry "Firefox".data [] = "Firefox".data ∧
    get_unique_name_for_desktop_entry "Firefox".data ["Firefox".data] =
      "Firefox".data ++ " (2)".data := by
  refine ⟨(unique_display_names [testEntry] [] []).1,
    (unique_display_names [] "Firefox".data []).2.1 (by simp),
    (unique_display_names [] "Firefox".data ["Firefox".data]).2.2 (by simp) (by decide)⟩

/-! ## C1 -/

/-- The `_COUNTRY` segment of a locale identifier, or nothing. -/
def countryPart (country : Option Str) : Str :=
  match country with | some c => '_' :: c | none => []

/-- The `.ENCODING` segment of a locale identifier, or nothing. -/
def encodingPart (encoding : Option Str) : Str :=
  match encoding with | some e => '.' :: e | none => []

/-- The `@MODIFIER` segment of a locale identifier, or nothing. -/
def modifierPart (modifier : Option Str) : Str :=
  match modifier with | some m => '@' :: m | none => []

/-- A locale identifier of the form `lang[_COUNTRY][.ENCODING][@MODIFIER]`
assembled from its components. -/
def localeId (lang : Str) (country encoding modifier : Option Str) : Str :=
  lang ++ countryPart country ++ encodingPart encoding ++ modifierPart modifier

/-- The candidate list the spec prescribes for each input form (after
encoding stripping): `lang_COUNTRY@MODIFIER, lang_COUNTRY, lang@MODIFIER,
lang`; `lang_COUNTRY, lang`; `lang@MODIFIER, lang`; or just `lang`. -/
def expectedLocaleKeys (lang : Str) (country modifier : Option Str) : List Str :=
  match country, modifier with
  | some c, some m =>
    [lang ++ '_' :: c ++ '@' :: m, lang ++ '_' :: c, lang ++ '@' :: m, lang]
  | some c, none => [lang ++ '_' :: c, lang]
  | none, some m => [lang ++ '@' :: m, lang]
  | none, none => [lang]

/-- A nonempty component containing none of the separator characters
`_ @ .` nor a newline. -/
def cleanStr (s : Str) : Prop :=
  s ≠ [] ∧ ∀ c ∈ s, c ≠ '_' ∧ c ≠ '@' ∧ c ≠ '.' ∧ c ≠ '\n'

lemma takeWhile_append_all (p : Char → Bool) (l r : Str) (h : ∀ c ∈ l, p c = true) :
    List.takeWhile p (l ++ r) = l ++ List.takeWhile p r := by
  induction l with
  | nil => rfl
  | cons c l ih =>
    rw [List.cons_append, List.takeWhile_cons, if_pos (h c (List.mem_cons_self c l)),
      ih (fun x hx => h x (List.mem_cons_of_mem c hx)), List.cons_append]

lemma dropWhile_append_all (p : Char → Bool) (l r : Str) (h : ∀ c ∈ l, p c = true) :
    List.dropWhile p (l ++ r) = List.dropWhile p r := by
  induction l with
  | nil => rfl
  | cons c l ih =>
    rw [List.cons_append, List.dropWhile_cons, if_pos (h c (List.mem_cons_self c l)),
      ih (fun x hx => h x (List.mem_cons_of_mem c hx))]

lemma dropWhile_eq_nil_all (p : Char → Bool) (l : Str) (h : ∀ c ∈ l, p c = true) :
    List.dropWhile p l = [] := by
  have := dropWhile_append_all p l [] h
  rw [List.append_nil] at this
  rw [this]
  rfl

lemma dropWhile_cons_neg (p : Char → Bool) (c : Char) (l : Str) (h : p c = false) :
    List.dropWhile p (c :: l) = c :: l := by
  rw [List.dropWhile_cons, if_neg (by simp [h])]

/-! Step and distribution lemmas for the five regex helpers. -/

lemma stripEncoding_nil : stripEncoding [] = [] := rfl

lemma stripEncoding_cons_ne (c : Char) (hc : c ≠ '.') (l : Str) :
    stripEncoding (c :: l) = c :: stripEncoding l := by
  rw [stripEncoding.eq_def]
  simp [hc]

lemma stripEncoding_append (l r : Str) (h : '.' ∉ l) :
    stripEncoding (l ++ r) = l ++ stripEncoding r := by
  induction l with
  | nil => rfl
  | cons c l ih =>
    have hc : c ≠ '.' := fun hc => h (hc ▸ List.mem_cons_self c l)
    rw [List.cons_append, stripEncoding_cons_ne c hc,
      ih (fun hm => h (List.mem_cons_of_mem c hm)), List.cons_append]

lemma stripEncoding_id (l : Str) (h : '.' ∉ l) : stripEncoding l = l := by
  have h2 := stripEncoding_append l [] h
  rw [List.append_nil] at h2
  rw [h2, stripEncoding_nil, List.append_nil]

lemma stripEncoding_dot (d : Char) (hd : d ≠ '@') (tail : Str) :
    stripEncoding ('.' :: d :: tail) = List.dropWhile (fun c => c ≠ '@') (d :: tail) := by
  rw [stripEncoding.eq_def]
  simp [hd]

lemma stripCountry_cons_ne (c : Char) (hc : c ≠ '_') (l : Str) :
    stripCountry (c :: l) = c :: stripCountry l := by
  rw [stripCountry.eq_def]
  simp [hc]

lemma stripCountry_append (l r : Str) (h : '_' ∉ l) :
    stripCountry (l ++ r) = l ++ stripCountry r := by
  induction l with
  | nil => rfl
  | cons c l ih =>
    have hc : c ≠ '_' := fun hc => h (hc ▸ List.mem_cons_self c l)
    rw [List.cons_append, stripCountry_cons_ne c hc,
      ih (fun hm => h (List.mem_cons_of_mem c hm)), List.cons_append]

lemma stripCountry_underscore (d : Char) (hd : d ≠ '@') (tail : Str) :
    stripCountry ('_' :: d :: tail) = List.dropWhile (fun c => c ≠ '@') (d :: tail) := by
  rw [stripCountry.eq_def]
  simp [hd]

lemma stripModifier_cons_ne (c : Char) (hc : c ≠ '@') (l : Str) :
    stripModifier (c :: l) = c :: stripModifier l := by
  rw [stripModifier.eq_def]
  simp [hc]

lemma stripModifier_append (l r : Str) (h : '@' ∉ l) :
    stripModifier (l ++ r) = l ++ stripModifier r := by
  induction l with
  | nil => rfl
  | cons c l ih =>
    have hc : c ≠ '@' := fun hc => h (hc ▸ List.mem_cons_self c l)
    rw [List.cons_append, stripModifier_cons_ne c hc,
      ih (fun hm => h (List.mem_cons_of_mem c hm)), List.cons_append]

lemma stripModifier_at (l : Str) :
    stripModifier ('@' :: l) = List.dropWhile (fun c => c ≠ '\n') l := by
  rw [stripModifier.eq_def]
  simp

lemma stripCountryOrModifier_nil : stripCountryOrModifier [] = [] := rfl

lemma stripCountryOrModifier_cons_ne (c : Char) (h1 : c ≠ '_') (h2 : c ≠ '@') (l : Str) :
    stripCountryOrModifier (c :: l) = c :: stripCountryOrModifier l := by
  rw [stripCountryOrModifier.eq_def]
  simp [h1, h2]

lemma stripCountryOrModifier_append (l r : Str) (h1 : '_' ∉ l) (h2 : '@' ∉ l) :
    stripCountryOrModifier (l ++ r) = l ++ stripCountryOrModifier r := by
  induction l with
  | nil => rfl
  | cons c l ih =>
    have hc1 : c ≠ '_' := fun hc => h1 (hc ▸ List.mem_cons_self c l)
    have hc2 : c ≠ '@' := fun hc => h2 (hc ▸ List.mem_cons_self c l)
    rw [List.cons_append, stripCountryOrModifier_cons_ne c hc1 hc2,
      ih (fun hm => h1 (List.mem_cons_of_mem c hm)) (fun hm => h2 (List.mem_cons_of_mem c hm)),
      List.cons_append]

lemma stripCountryOrModifier_id (l : Str) (h1 : '_' ∉ l) (h2 : '@' ∉ l) :
    stripCountryOrModifier l = l := by
  have h3 := stripCountryOrModifier_append l [] h1 h2
  rw [List.append_nil] at h3
  rw [h3, stripCountryOrModifier_nil, List.append_nil]

lemma stripCountryOrModifier_sep (c : Char) (hc : c = '_' ∨ c = '@') (l : Str) :
    stripCountryOrModifier (c :: l) = List.dropWhile (fun x => x ≠ '\n') l := by
  rw [stripCountryOrModifier.eq_def]
  rcases hc with h | h <;> simp [h]

lemma hasCountryAndModifier_cons (c : Char) (rest : Str) :
    hasCountryAndModifier (c :: rest) =
      ((c = '_' && !(rest.takeWhile (· ≠ '@')).isEmpty &&
        !(rest.dropWhile (· ≠ '@')).isEmpty) || hasCountryAndModifier rest) := rfl

lemma hasCountryAndModifier_no_underscore (l : Str) (h : '_' ∉ l) :
    hasCountryAndModifier l = false := by
  induction l with
  | nil => rfl
  | cons c l ih =>
    have hc : c ≠ '_' := fun hc => h (hc ▸ List.mem_cons_self c l)
    rw [hasCountryAndModifier_cons, ih (fun hm => h (List.mem_cons_of_mem c hm))]
    simp [hc]

lemma hasCountryAndModifier_append (l r : Str) (h : '_' ∉ l) :
    hasCountryAndModifier (l ++ r) = hasCountryAndModifier r := by
  induction l with
  | nil => rfl
  | cons c l ih =>
    have hc : c ≠ '_' := fun hc => h (hc ▸ List.mem_cons_self c l)
    rw [List.cons_append, hasCountryAndModifier_cons,
      ih (fun hm => h (List.mem_cons_of_mem c hm))]
    simp [hc]

lemma cleanStr_not_mem (s : Str) (h : cleanStr s) :
    '_' ∉ s ∧ '@' ∉ s ∧ '.' ∉ s ∧ '\n' ∉ s :=
  ⟨fun hm => (h.2 _ hm).1 rfl, fun hm => (h.2 _ hm).2.1 rfl,
   fun hm => (h.2 _ hm).2.2.1 rfl, fun hm => (h.2 _ hm).2.2.2 rfl⟩

lemma all_pred_ne (a : Char) (l : Str) (h : a ∉ l) :
    ∀ c ∈ l, (fun x => decide (x ≠ a)) c = true :=
  fun c hc => decide_eq_true (fun he => h (he ▸ hc))

lemma takeWhile_cons_neg (p : Char → Bool) (c : Char) (l : Str) (h : p c = false) :
    List.takeWhile p (c :: l) = [] := by
  rw [List.takeWhile_cons, if_neg (by simp [h])]

lemma stripEncoding_generic (L e T : Str) (hL : '.' ∉ L) (he : e ≠ [])
    (heat : '@' ∉ e) (hT : List.dropWhile (fun x => decide (x ≠ '@')) T = T) :
    stripEncoding (L ++ '.' :: (e ++ T)) = L ++ T := by
  cases e with
  | nil => exact absurd rfl he
  | cons d e' =>
    have hd : d ≠ '@' := fun hq => heat (hq ▸ List.mem_cons_self d e')
    rw [stripEncoding_append L _ hL,
      show ('.' :: ((d :: e') ++ T)) = '.' :: d :: (e' ++ T) from rfl,
      stripEncoding_dot d hd,
      show (d :: (e' ++ T)) = ((d :: e') ++ T) from rfl,
      dropWhile_append_all _ _ _ (all_pred_ne '@' (d :: e') heat), hT]

lemma stripEncoding_localeId (lang : Str) (country encoding modifier : Option Str)
    (hlang : cleanStr lang) (hc : ∀ s, country = some s → cleanStr s)
    (he : ∀ s, encoding = some s → s ≠ [] ∧ '@' ∉ s)
    (hm : ∀ s, modifier = some s → cleanStr s) :
    stripEncoding (localeId lang country encoding modifier) =
      localeId lang country none modifier := by
  have hl := cleanStr_not_mem lang hlang
  have hCdot : '.' ∉ countryPart country := by
    cases country with
    | none => simp [countryPart]
    | some c =>
      have hcc := cleanStr_not_mem c (hc c rfl)
      simp only [countryPart]
      rw [List.mem_cons]
      rintro (h | h)
      · cases h
      · exact hcc.2.2.1 h
  have hMdot : '.' ∉ modifierPart modifier := by
    cases modifier with
    | none => simp [modifierPart]
    | some m =>
      have hmm := cleanStr_not_mem m (hm m rfl)
      simp only [modifierPart]
      rw [List.mem_cons]
      rintro (h | h)
      · cases h
      · exact hmm.2.2.1 h
  have hLdot : '.' ∉ lang ++ countryPart country := by
    intro hmem
    rcases List.mem_append.1 hmem with hmem | hmem
    · exact hl.2.2.1 hmem
    · exact hCdot hmem
  cases encoding with
  | none =>
    rw [show localeId lang country none modifier =
        (lang ++ countryPart country) ++ modifierPart modifier from by
      simp [localeId, encodingPart, List.append_assoc]]
    apply stripEncoding_id
    intro hmem
    rcases List.mem_append.1 hmem with hmem | hmem
    · exact hLdot hmem
    · exact hMdot hmem
  | some e =>
    obtain ⟨hene, heat⟩ := he e rfl
    have hT : List.dropWhile (fun x => decide (x ≠ '@')) (modifierPart modifier) =
        modifierPart modifier := by
      cases modifier with
      | none => rfl
      | some m => exact dropWhile_cons_neg _ '@' m (by simp)
    have hre : localeId lang country (some e) modifier =
        (lang ++ countryPart country) ++ '.' :: (e ++ modifierPart modifier) := by
      simp [localeId, encodingPart, List.append_assoc]
    rw [hre, stripEncoding_generic _ e _ hLdot hene heat hT]
    simp [localeId, encodingPart, List.append_assoc]

/-- C1: `get_locale_keys` first strips any encoding segment and then
returns exactly the ordered candidate list the spec prescribes for each
input form `lang[_COUNTRY][.ENCODING][@MODIFIER]`: for
`lang_COUNTRY@MODIFIER` the list `[lang_COUNTRY@MODIFIER, lang_COUNTRY,
lang@MODIFIER, lang]`; for `lang_COUNTRY` the list `[lang_COUNTRY,
lang]`; for `lang@MODIFIER` the list `[lang@MODIFIER, lang]`; and for
bare `lang` just `[lang]` — the plain-`lang` candidate is appended only
when it differs from the (encoding-stripped) full string. -/
theorem get_locale_keys_spec (lang : Str) (country encoding modifier : Option Str)
    (hlang : cleanStr lang) (hc : ∀ s, country = some s → cleanStr s)
    (he : ∀ s, encoding = some s → s ≠ [] ∧ '@' ∉ s)
    (hm : ∀ s, modifier = some s → cleanStr s) :
    get_locale_keys (localeId lang country encoding modifier) =
      expectedLocaleKeys lang country modifier := by
  have hl := cleanStr_not_mem lang hlang
  have hstrip := stripEncoding_localeId lang country encoding modifier hlang hc he hm
  cases country with
  | some c =>
    have hcne := (hc c rfl).1
    have hcm := cleanStr_not_mem c (hc c rfl)
    cases modifier with
    | some m =>
      have hmm := cleanStr_not_mem m (hm m rfl)
      cases c with
      | nil => exact absurd rfl hcne
      | cons d ct =>
        have hd : d ≠ '@' := fun hq => hcm.2.1 (hq ▸ List.mem_cons_self d ct)
        have hA : localeId lang (some (d :: ct)) none (some m) =
            lang ++ '_' :: d :: (ct ++ '@' :: m) := by
          simp [localeId, countryPart, encodingPart, modifierPart]
        have hnotatL : '@' ∉ lang ++ '_' :: d :: ct := by
          intro hmem
          rcases List.mem_append.1 hmem with hmem | hmem
          · exact hl.2.1 hmem
          · rcases List.mem_cons.1 hmem with hmem | hmem
            · cases hmem
            · exact hcm.2.1 hmem
        have ht : List.takeWhile (fun x => decide (x ≠ '@')) (d :: (ct ++ '@' :: m)) =
            d :: ct := by
          rw [show (d :: (ct ++ '@' :: m)) = ((d :: ct) ++ '@' :: m) from rfl,
            takeWhile_append_all _ _ _ (all_pred_ne '@' (d :: ct) hcm.2.1),
            takeWhile_cons_neg _ '@' m (by simp), List.append_nil]
        have hdr : List.dropWhile (fun x => decide (x ≠ '@')) (d :: (ct ++ '@' :: m)) =
            '@' :: m := by
          rw [show (d :: (ct ++ '@' :: m)) = ((d :: ct) ++ '@' :: m) from rfl,
            dropWhile_append_all _ _ _ (all_pred_ne '@' (d :: ct) hcm.2.1),
            dropWhile_cons_neg _ '@' m (by simp)]
        have h1 : hasCountryAndModifier (lang ++ '_' :: d :: (ct ++ '@' :: m)) = true := by
          rw [hasCountryAndModifier_append lang _ hl.1, hasCountryAndModifier_cons,
            ht, hdr]
          simp
        have h2 : stripModifier (lang ++ '_' :: d :: (ct ++ '@' :: m)) =
            lang ++ '_' :: d :: ct := by
          rw [show lang ++ '_' :: d :: (ct ++ '@' :: m) =
              (lang ++ '_' :: d :: ct) ++ '@' :: m from by simp [List.append_assoc],
            stripModifier_append _ _ hnotatL, stripModifier_at,
            dropWhile_eq_nil_all _ m (all_pred_ne '\n' m hmm.2.2.2), List.append_nil]
        have h3 : stripCountry (lang ++ '_' :: d :: (ct ++ '@' :: m)) =
            lang ++ '@' :: m := by
          rw [stripCountry_append lang _ hl.1, stripCountry_underscore d hd, hdr]
        have h4 : stripCountryOrModifier (lang ++ '_' :: d :: (ct ++ '@' :: m)) =
            lang := by
          rw [stripCountryOrModifier_append lang _ hl.1 hl.2.1,
            stripCountryOrModifier_sep '_' (Or.inl rfl),
            dropWhile_eq_nil_all _ _ (by
              intro x hx
              apply decide_eq_true
              intro hxe
              rw [show (d :: (ct ++ '@' :: m)) = ((d :: ct) ++ '@' :: m) from rfl] at hx
              rcases List.mem_append.1 hx with hx | hx
              · exact hcm.2.2.2 (hxe ▸ hx)
              · rcases List.mem_cons.1 hx with hx | hx
                · rw [hxe] at hx
                  exact absurd hx (by decide)
                · exact hmm.2.2.2 (hxe ▸ hx)),
            List.append_nil]
        have h5 : lang ≠ lang ++ '_' :: d :: (ct ++ '@' :: m) := by
          intro heq
          have hlen := congrArg List.length heq
          simp at hlen
        rw [get_locale_keys, hstrip, hA, h1, h2, h3, h4]
        simp [h5, expectedLocaleKeys, List.append_assoc]
    | none =>
      cases c with
      | nil => exact absurd rfl hcne
      | cons d ct =>
        have hA : localeId lang (some (d :: ct)) none none =
            lang ++ '_' :: d :: ct := by
          simp [localeId, countryPart, encodingPart, modifierPart]
        have h1 : hasCountryAndModifier (lang ++ '_' :: d :: ct) = false := by
          rw [hasCountryAndModifier_append lang _ hl.1, hasCountryAndModifier_cons,
            hasCountryAndModifier_no_underscore (d :: ct) hcm.1,
            dropWhile_eq_nil_all _ _ (all_pred_ne '@' (d :: ct) hcm.2.1)]
          simp
        have h4 : stripCountryOrModifier (lang ++ '_' :: d :: ct) = lang := by
          rw [stripCountryOrModifier_append lang _ hl.1 hl.2.1,
            stripCountryOrModifier_sep '_' (Or.inl rfl),
            dropWhile_eq_nil_all _ _ (all_pred_ne '\n' (d :: ct) hcm.2.2.2),
            List.append_nil]
        have h5 : lang ≠ lang ++ '_' :: d :: ct := by
          intro heq
          have hlen := congrArg List.length heq
          simp at hlen
        rw [get_locale_keys, hstrip, hA, h1, h4]
        simp [h5, expectedLocaleKeys]
  | none =>
    cases modifier with
    | some m =>
      have hmm := cleanStr_not_mem m (hm m rfl)
      have hA : localeId lang none none (some m) = lang ++ '@' :: m := by
        simp [localeId, countryPart, encodingPart, modifierPart]
      have h1 : hasCountryAndModifier (lang ++ '@' :: m) = false := by
        apply hasCountryAndModifier_no_underscore
        intro hmem
        rcases List.mem_append.1 hmem with hmem | hmem
        · exact hl.1 hmem
        · rcases List.mem_cons.1 hmem with hmem | hmem
          · cases hmem
          · exact hmm.1 hmem
      have h4 : stripCountryOrModifier (lang ++ '@' :: m) = lang := by
        rw [stripCountryOrModifier_append lang _ hl.1 hl.2.1,
          stripCountryOrModifier_sep '@' (Or.inr rfl),
          dropWhile_eq_nil_all _ _ (all_pred_ne '\n' m hmm.2.2.2), List.append_nil]
      have h5 : lang ≠ lang ++ '@' :: m := by
        intro heq
        have hlen := congrArg List.length heq
        simp at hlen
      rw [get_locale_keys, hstrip, hA, h1, h4]
      simp [h5, expectedLocaleKeys]
    | none =>
      have hA : localeId lang none none none = lang := by
        simp [localeId, countryPart, encodingPart, modifierPart]
      have h1 : hasCountryAndModifier lang = false :=
        hasCountryAndModifier_no_underscore lang hl.1
      have h4 : stripCountryOrModifier lang = lang :=
        stripCountryOrModifier_id lang hl.1 hl.2.1
      rw [get_locale_keys, hstrip, hA, h1, h4]
      simp [expectedLocaleKeys]

/-- C1 witness: the theorem applied to `en_CA.UTF8@Latn`, whose candidate
list is `[en_CA@Latn, en_CA, en@Latn, en]`, exercising encoding
stripping together with the country and modifier cases. -/
theorem get_locale_keys_spec_witness :
    get_locale_keys "en_CA.UTF8@Latn".data =
      ["en_CA@Latn".data, "en_CA".data, "en@Latn".data, "en".data] := by
  have h := get_locale_keys_spec "en".data (some "CA".data) (some "UTF8".data)
    (some "Latn".data)
    (by constructor <;> decide)
    (by intro s hs; cases hs; constructor <;> decide)
    (by intro s hs; cases hs; constructor <;> decide)
    (by intro s hs; cases hs; constructor <;> decide)
  have hid : localeId "en".data (some "CA".data) (some "UTF8".data) (some "Latn".data) =
      "en_CA.UTF8@Latn".data := by decide
  have hexp : expectedLocaleKeys "en".data (some "CA".data) (some "Latn".data) =
      ["en_CA@Latn".data, "en_CA".data, "en@Latn".data, "en".data] := by decide
  rw [hid, hexp] at h
  exact h

end I3DmenuDesktop
